import Mathlib

/-
Verification development for the gtex/gdc whole-slide-image download scripts.

Strings are modelled as lists of characters (abbreviation Str), so that the
Python string operations rstrip, split, strip and startswith can be embedded
as structurally recursive functions and reasoned about by induction.

The filesystem is modelled as an oracle fs : Str -> Bool giving, for each
file name in the output directory, whether a file of that name exists.
External process outcomes (wget exit codes, gdc downloads, file removals)
are modelled as oracles as well, indexed by task position or by name.
-/

abbrev Str := List Char

/-- Python str.strip embedded on character lists: drop whitespace from both
ends of the line. -/
def stripChars (l : Str) : Str :=
  ((l.dropWhile Char.isWhitespace).reverse.dropWhile Char.isWhitespace).reverse

/-- The keep condition of load_urls in gtex.py line 105: keep a stripped line
when it is non-empty and does not start with the comment character. -/
def keepLine : Str → Bool
  | [] => false
  | c :: _ => !(c == '#')

/-- Embedding of load_urls (gtex.py lines 99-106), given that the URL file
exists: strip every line, keep non-empty non-comment lines.  The missing-file
branch (sys.exit 2) is modelled in gtex_main below. -/
def load_urls (lines : List Str) : List Str :=
  (lines.map stripChars).filter keepLine

/-- Python str.split on the slash separator, embedded on character lists.
Mirrors Python semantics: splitting the empty string yields one empty field,
and consecutive separators yield empty fields. -/
def splitOnSlash : Str → List Str
  | [] => [[]]
  | c :: cs =>
    if c = '/' then [] :: splitOnSlash cs
    else
      match splitOnSlash cs with
      | [] => [[c]]
      | s :: rest => (c :: s) :: rest

/-- Python url.rstrip applied to the slash character: remove trailing
slashes. -/
def rstripSlash (cs : Str) : Str :=
  (cs.reverse.dropWhile (· == '/')).reverse

/-- The basename computation used during partitioning (gtex.py line 199 and
line 276): url.rstrip of slash, split on slash, last field.  No fallback is
applied here; the fallback lives only in wget_download. -/
def rawBasename (url : Str) : Str :=
  (splitOnSlash (rstripSlash url)).getLastD []

/-- The fallback file name assigned by wget_download when the derived name is
empty (gtex.py line 129). -/
def fallbackName : Str := "download".toList

/-- The name computation of wget_download (gtex.py lines 126-129): basename
of the URL, with the fallback literal when the basename is empty. -/
def destName (url : Str) : Str :=
  let n := rawBasename url
  if n = [] then fallbackName else n

/-- The canonical extension checked by the existence oracle. -/
def svsExt : Str := ".svs".toList

/-- Embedding of file_already_exists (gtex.py lines 109-113): a destination
is present when a file with the exact basename exists or a file with the
basename plus the canonical svs extension exists.  The directory content is
the oracle fs. -/
def file_already_exists (fs : Str → Bool) (basename : Str) : Bool :=
  fs basename || fs (basename ++ svsExt)

/-- Embedding of the partition loop of gtex.py lines 196-203: every URL whose
basename is already present (when skipping is enabled) contributes its
basename to the skipped list; every other URL is appended to the download
list.  Both lists preserve input order. -/
def partitionUrls (skip : Bool) (fs : Str → Bool) : List Str → List Str × List Str
  | [] => ([], [])
  | u :: rest =>
    let b := rawBasename u
    let p := partitionUrls skip fs rest
    if skip && file_already_exists fs b then (p.1, b :: p.2)
    else (u :: p.1, p.2)

/-- Modelled from the spec: the last non-empty path segment of a reference
(spec section 4.2 step 1).  Used only to compare the source computation of
destName against the words of the spec. -/
def lastNonEmptySegment (url : Str) : Str :=
  ((splitOnSlash url).filter (fun s => !s.isEmpty)).getLastD []

/-- The fixed batch size configured in gdc.py line 14. -/
def BATCH_SIZE : Nat := 10

/-- Embedding of the Python iteration range with start 0, stop and a step:
the multiples of the step below the stop, in increasing order (gdc.py line
124 iterates range of 0, total, BATCH_SIZE). -/
def pyRangeStep (stop step : Nat) : List Nat :=
  (List.range stop).filter (fun i => i % step = 0)

/-- The chunking performed by download_slides_batch (gdc.py lines 124-125):
for each multiple i of the batch size below the total, the slice of the task
list from i of length at most the batch size. -/
def chunksOf (B : Nat) (l : List α) : List (List α) :=
  (pyRangeStep l.length B).map (fun i => (l.drop i).take B)

/-- Embedding of download_slides_batch (gdc.py lines 105-143): the id list is
cut into chunks of BATCH_SIZE, each chunk is submitted once to the batch
fetch primitive, sequentially and in order; the oracle batchOk gives the
outcome of the chunk at each chunk index (true when download_multiple
returns, false when it raises). -/
def download_slides_batch (batchOk : Nat → Bool) (ids : List Str) :
    List (List Str × Bool) :=
  (chunksOf BATCH_SIZE ids).enum.map (fun p => (p.2, batchOk p.1))

/-- Attribution of chunk results to member tasks (spec section 4.3): every
task in a chunk receives that chunk result. -/
def attributeBatch (batchOk : Nat → Bool) (ids : List Str) :
    List (Str × Bool) :=
  (download_slides_batch batchOk ids).flatMap
    (fun p => p.1.map (fun id => (id, p.2)))

/-- Per-task outcome, as in the Result data model of the spec. -/
inductive Outcome
  | success
  | failed
  | skipped
deriving DecidableEq, Repr

/-- The per-task decision of download_slides (gdc.py lines 83-102) for one
file name: existing destination without overwrite is skipped; existing
destination with overwrite first removes the file and a failing removal is a
failure without any fetch; otherwise the fetch primitive decides between
success and failure. -/
def gdcStep (overwrite : Bool) (fs removeOk fetchOk : Str → Bool)
    (name : Str) : Outcome :=
  if fs name && !overwrite then .skipped
  else if fs name && overwrite && !removeOk name then .failed
  else if fetchOk name then .success else .failed

/-- Whether download_slides reaches the fetch primitive for a name: exactly
when the task is neither skipped nor stopped by a failing removal. -/
def gdcNeedsFetch (overwrite : Bool) (fs removeOk : Str → Bool)
    (name : Str) : Bool :=
  !(fs name && !overwrite) && !(fs name && overwrite && !removeOk name)

/-- Embedding of the loop of download_slides (gdc.py lines 74-102): for every
file, in order, produce the per-task outcome, and record the names actually
passed to the fetch primitive, in order.  A failing task only hits continue
in the source, so the loop always proceeds to the remaining files. -/
def download_slides (overwrite : Bool) (fs removeOk fetchOk : Str → Bool) :
    List Str → List (Str × Outcome) × List Str
  | [] => ([], [])
  | n :: rest =>
    let r := download_slides overwrite fs removeOk fetchOk rest
    if fs n && !overwrite then ((n, .skipped) :: r.1, r.2)
    else if fs n && overwrite && !removeOk n then ((n, .failed) :: r.1, r.2)
    else ((n, if fetchOk n then .success else .failed) :: r.1, n :: r.2)

/-- The strategy selected by the execution engine of gtex.py. -/
inductive Strategy
  | notRun
  | seq
  | pool
deriving DecidableEq, Repr

/-- Embedding of the strategy choice at gtex.py line 273: sequential when the
sequential flag is set or the concurrency bound is at most one, otherwise the
worker pool. -/
def chooseStrategy (sequential : Bool) (concurrency : Int) : Strategy :=
  if sequential || concurrency ≤ 1 then .seq else .pool

/-- The sequential-streamed loop of gtex.py lines 275-285, with the wget exit
code for the i-th submitted URL given by the oracle code: each URL yields one
result triple of sanitized name, success flag and exit code, in input
order. -/
def seqRunAux (code : Nat → Int) : Nat → List Str → List (Str × Bool × Int)
  | _, [] => []
  | i, u :: rest =>
    (destName u, code i == 0, code i) :: seqRunAux code (i + 1) rest

/-- Sequential-streamed strategy over the download list. -/
def seqRun (toD : List Str) (code : Nat → Int) : List (Str × Bool × Int) :=
  seqRunAux code 0 toD

/-- The worker-pool loop of gtex.py lines 288-311: every submitted URL is a
distinct future, and results are appended in completion order, described by
the list perm of submission indices (a permutation of the index range).  Each
completed future yields one result triple. -/
def poolRun (toD : List Str) (code : Nat → Int) (perm : List Nat) :
    List (Str × Bool × Int) :=
  perm.map (fun i => (destName (toD.getD i []), code i == 0, code i))

/-- The filesystem after a gtex run: a successful download creates the file
with the sanitized destination name (wget side effect), every other name is
untouched. -/
def fsAfterRun (fs : Str → Bool) (results : List (Str × Bool × Int)) :
    Str → Bool :=
  fun n => fs n || results.any (fun r => r.2.1 && r.1 == n)

/-- The observable outcome of one invocation of gtex.py main. -/
structure GtexRun where
  exitCode : Nat
  strategy : Strategy
  toDownload : List Str
  skippedNames : List Str
  fetched : List Str
  results : List (Str × Bool × Int)
  fsAfter : Str → Bool

/-- Embedding of main in gtex.py (lines 175-321), without the optional aria
path (the use-aria flag defaults to false and is outside every claim).
Oracles: wgetOnPath for the startup check at line 177, urlfileExists for the
missing-file branch of load_urls, fs for the output directory content at
enumeration time, code for the wget exit code of the i-th submitted URL, and
perm for the completion order of the worker pool.  The function returns with
exit code 2 for the two startup errors, and 0 on every other path, matching
the source which only calls sys.exit on startup errors. -/
def gtex_main (wgetOnPath urlfileExists : Bool) (fileLines : List Str)
    (skip_existing sequential dry_run : Bool) (concurrency : Int)
    (fs : Str → Bool) (code : Nat → Int) (perm : List Nat) : GtexRun :=
  if !wgetOnPath then ⟨2, .notRun, [], [], [], [], fs⟩
  else if !urlfileExists then ⟨2, .notRun, [], [], [], [], fs⟩
  else
    let urls := load_urls fileLines
    if urls.isEmpty then ⟨0, .notRun, [], [], [], [], fs⟩
    else
      let p := partitionUrls skip_existing fs urls
      if dry_run then ⟨0, .notRun, p.1, p.2, [], [], fs⟩
      else
        let strat := chooseStrategy sequential concurrency
        let res :=
          match strat with
          | .pool => poolRun p.1 code perm
          | _ => seqRun p.1 code
        ⟨0, strat, p.1, p.2, p.1, res, fsAfterRun fs res⟩

/-- The observable outcome of one invocation of gdc.py main. -/
structure GdcRun where
  fetchCalls : List Str
  batchCalls : List (List Str)
  results : List (Str × Outcome)
  fsAfter : Str → Bool

/-- Embedding of main in gdc.py (lines 146-219): after the catalog query
(whose file list is the parameter files), a dry run prints a preview and
returns before any download; otherwise the run proceeds only with
confirmation, and dispatches to the batch downloader when method two is
chosen and to the individual downloader otherwise.  main passes no overwrite
argument, so download_slides runs with its default of false. -/
def gdc_main (dry_run yes confirm methodTwo : Bool) (files : List Str)
    (fs removeOk fetchOk : Str → Bool) (batchOk : Nat → Bool) : GdcRun :=
  if dry_run then ⟨[], [], [], fs⟩
  else if !yes && !confirm then ⟨[], [], [], fs⟩
  else if methodTwo then
    ⟨[], chunksOf BATCH_SIZE files,
      attributeBatch batchOk files |>.map
        (fun p => (p.1, if p.2 then Outcome.success else Outcome.failed)),
      fs⟩
  else
    let d := download_slides false fs removeOk fetchOk files
    ⟨d.2, [], d.1, fun n => fs n || d.1.any (fun r => r.1 == n && r.2 == Outcome.success)⟩

/- Helper lemmas about the embedded string operations. -/

theorem splitOnSlash_ne_nil (cs : Str) : splitOnSlash cs ≠ [] := by
  cases cs with
  | nil => simp [splitOnSlash]
  | cons c cs =>
    simp only [splitOnSlash]
    split
    · simp
    · cases h : splitOnSlash cs <;> simp

theorem splitOnSlash_append_slash (xs : Str) :
    splitOnSlash (xs ++ ['/']) = splitOnSlash xs ++ [[]] := by
  induction xs with
  | nil => rfl
  | cons c cs ih =>
    rw [List.cons_append, splitOnSlash, splitOnSlash]
    by_cases hc : c = '/'
    · rw [if_pos hc, if_pos hc, ih]
      rfl
    · rw [if_neg hc, if_neg hc, ih]
      cases h : splitOnSlash cs with
      | nil => exact absurd h (splitOnSlash_ne_nil cs)
      | cons s rest => simp

theorem mem_splitOnSlash_no_slash (cs : Str) :
    ∀ s ∈ splitOnSlash cs, '/' ∉ s := by
  induction cs with
  | nil =>
    intro s hs
    simp [splitOnSlash] at hs
    simp [hs]
  | cons c cs ih =>
    intro s hs
    by_cases hc : c = '/'
    · simp only [splitOnSlash, if_pos hc, List.mem_cons] at hs
      rcases hs with h | h
      · simp [h]
      · exact ih s h
    · simp only [splitOnSlash, if_neg hc] at hs
      cases h : splitOnSlash cs with
      | nil => exact absurd h (splitOnSlash_ne_nil cs)
      | cons t rest =>
        rw [h] at hs
        simp only [List.mem_cons] at hs
        rcases hs with h1 | h1
        · subst h1
          intro hmem
          rcases List.mem_cons.mp hmem with h2 | h2
          · exact hc h2.symm
          · exact ih t (by simp [h]) h2
        · exact ih s (by simp [h, h1])

theorem splitOnSlash_no_slash (cs : Str) (h : '/' ∉ cs) :
    splitOnSlash cs = [cs] := by
  induction cs with
  | nil => rfl
  | cons c cs ih =>
    have hc : ¬c = '/' := fun he => h (by simp [he])
    have hcs : '/' ∉ cs := fun hm => h (List.mem_cons_of_mem _ hm)
    simp only [splitOnSlash, if_neg hc, ih hcs]

theorem filter_splitOnSlash_append (xs ss : Str) (h : ∀ c ∈ ss, c = '/') :
    (splitOnSlash (xs ++ ss)).filter (fun s => !s.isEmpty) =
      (splitOnSlash xs).filter (fun s => !s.isEmpty) := by
  induction ss using List.reverseRecOn with
  | nil => simp
  | append_singleton ts a ih =>
    have ha : a = '/' := h a (by simp)
    have hts : ∀ c ∈ ts, c = '/' := fun c hc => h c (by simp [hc])
    rw [← List.append_assoc, ha, splitOnSlash_append_slash, List.filter_append]
    simp [ih hts]

theorem rstripSlash_decomp (url : Str) :
    rstripSlash url ++ (url.reverse.takeWhile (· == '/')).reverse = url := by
  rw [rstripSlash, ← List.reverse_append, List.takeWhile_append_dropWhile,
    List.reverse_reverse]

theorem mem_takeWhile_slash (url : Str) :
    ∀ c ∈ (url.reverse.takeWhile (· == '/')).reverse, c = '/' := by
  intro c hc
  rw [List.mem_reverse] at hc
  have := List.mem_takeWhile_imp hc
  simpa using this

theorem head?_dropWhile_not (p : Char → Bool) (l : Str) :
    ∀ a, (l.dropWhile p).head? = some a → p a = false := by
  induction l with
  | nil => intro a ha; simp at ha
  | cons c cs ih =>
    intro a ha
    rw [List.dropWhile_cons] at ha
    by_cases hp : p c
    · rw [if_pos hp] at ha
      exact ih a ha
    · rw [if_neg hp] at ha
      simp only [List.head?_cons, Option.some.injEq] at ha
      subst ha
      exact Bool.not_eq_true _ ▸ (by simpa using hp)

theorem rstripSlash_getLast? (url : Str) :
    ∀ a, (rstripSlash url).getLast? = some a → a ≠ '/' := by
  intro a ha
  rw [rstripSlash, List.getLast?_reverse] at ha
  have := head?_dropWhile_not (· == '/') url.reverse a ha
  simpa using this

theorem getLastD_eq_getLastD {α : Type _} (L : List α) (h : L ≠ [])
    (d₁ d₂ : α) : L.getLastD d₁ = L.getLastD d₂ := by
  cases L with
  | nil => exact absurd rfl h
  | cons a l => rw [List.getLastD_cons, List.getLastD_cons]

theorem getLastD_mem {α : Type _} (L : List α) (h : L ≠ []) (d : α) :
    L.getLastD d ∈ L := by
  induction L generalizing d with
  | nil => exact absurd rfl h
  | cons a l ih =>
    rw [List.getLastD_cons]
    cases l with
    | nil => simp [List.getLastD]
    | cons b m => exact List.mem_cons_of_mem _ (ih (by simp) a)

theorem splitOnSlash_getLastD_ne_nil (cs : Str) (h0 : cs ≠ [])
    (h1 : ∀ a, cs.getLast? = some a → a ≠ '/') :
    (splitOnSlash cs).getLastD [] ≠ [] := by
  induction cs with
  | nil => exact absurd rfl h0
  | cons c cs ih =>
    cases cs with
    | nil =>
      have hc : c ≠ '/' := h1 c (by simp)
      simp [splitOnSlash, if_neg hc]
    | cons b bs =>
      have h1' : ∀ a, (b :: bs).getLast? = some a → a ≠ '/' := by
        intro a ha
        exact h1 a (by rw [List.getLast?_cons_cons]; exact ha)
      have ihr := ih (by simp) h1'
      by_cases hc : c = '/'
      · rw [splitOnSlash, if_pos hc, List.getLastD_cons]
        rwa [getLastD_eq_getLastD _ (splitOnSlash_ne_nil _) [] []]
      · rw [splitOnSlash, if_neg hc]
        cases hS : splitOnSlash (b :: bs) with
        | nil => exact absurd hS (splitOnSlash_ne_nil _)
        | cons s rest =>
          cases rest with
          | nil => simp
          | cons t ts =>
            rw [hS, List.getLastD_cons] at ihr
            rw [List.getLastD_cons,
              getLastD_eq_getLastD (t :: ts) (by simp) (c :: s) s]
            exact ihr

theorem filter_getLastD_of_last_ne_nil (L : List Str) (h0 : L ≠ [])
    (h1 : L.getLastD [] ≠ []) :
    (L.filter (fun s => !s.isEmpty)).getLastD [] = L.getLastD [] := by
  induction L using List.reverseRecOn with
  | nil => exact absurd rfl h0
  | append_singleton ts a ih =>
    rw [List.getLastD_concat] at h1 ⊢
    rw [List.filter_append]
    have ha : List.filter (fun s => !s.isEmpty) [a] = [a] := by
      simp only [List.filter]
      have : (!a.isEmpty) = true := by
        simpa [List.isEmpty_iff] using h1
      rw [this]
    rw [ha, List.getLastD_concat]

theorem lastNonEmptySegment_eq_rawBasename (url : Str) :
    lastNonEmptySegment url = rawBasename url := by
  have hdec := rstripSlash_decomp url
  have hmem := mem_takeWhile_slash url
  by_cases hR : rstripSlash url = []
  · rw [lastNonEmptySegment, rawBasename, hR]
    rw [hR, List.nil_append] at hdec
    conv_lhs => rw [← hdec]
    have hfa := filter_splitOnSlash_append [] _ hmem
    rw [List.nil_append] at hfa
    rw [hfa]
    rfl
  · rw [lastNonEmptySegment, rawBasename]
    have h2 : (splitOnSlash (rstripSlash url)).getLastD [] ≠ [] :=
      splitOnSlash_getLastD_ne_nil _ hR (rstripSlash_getLast? url)
    conv_lhs => rw [← hdec]
    rw [filter_splitOnSlash_append _ _ hmem]
    exact filter_getLastD_of_last_ne_nil _ (splitOnSlash_ne_nil _) h2

theorem rawBasename_no_slash (url : Str) : '/' ∉ rawBasename url := by
  rw [rawBasename]
  cases hS : splitOnSlash (rstripSlash url) with
  | nil => exact absurd hS (splitOnSlash_ne_nil _)
  | cons s rest =>
    have hmem : (s :: rest).getLastD [] ∈ s :: rest := getLastD_mem _ (by simp) _
    have hall := mem_splitOnSlash_no_slash (rstripSlash url)
    rw [hS] at hall
    exact hall _ hmem

theorem dropWhile_slash_of_no_slash (cs : Str) (h : '/' ∉ cs) :
    cs.dropWhile (· == '/') = cs := by
  cases cs with
  | nil => rfl
  | cons c cs =>
    have hc : ¬((c == '/') = true) := by
      simp only [beq_iff_eq]
      intro he
      exact h (by simp [he])
    rw [List.dropWhile_cons, if_neg hc]

theorem rstripSlash_of_no_slash (cs : Str) (h : '/' ∉ cs) :
    rstripSlash cs = cs := by
  rw [rstripSlash, dropWhile_slash_of_no_slash _ (by simpa using h),
    List.reverse_reverse]

theorem rawBasename_idem (url : Str) :
    rawBasename (rawBasename url) = rawBasename url := by
  have hns := rawBasename_no_slash url
  conv_lhs => rw [rawBasename]
  rw [rstripSlash_of_no_slash _ hns, splitOnSlash_no_slash _ hns]
  rfl

theorem partitionUrls_fst (skip : Bool) (fs : Str → Bool) :
    ∀ urls, (partitionUrls skip fs urls).1 =
      urls.filter (fun u => !(skip && file_already_exists fs (rawBasename u))) := by
  intro urls
  induction urls with
  | nil => rfl
  | cons u rest ih =>
    simp only [partitionUrls, List.filter_cons]
    by_cases hc : (skip && file_already_exists fs (rawBasename u)) = true
    · simp [hc, ih]
    · simp [hc, ih]

theorem partitionUrls_snd (skip : Bool) (fs : Str → Bool) :
    ∀ urls, (partitionUrls skip fs urls).2 =
      (urls.filter
        (fun u => skip && file_already_exists fs (rawBasename u))).map rawBasename := by
  intro urls
  induction urls with
  | nil => rfl
  | cons u rest ih =>
    simp only [partitionUrls, List.filter_cons]
    by_cases hc : (skip && file_already_exists fs (rawBasename u)) = true
    · simp [hc, ih]
    · simp [hc, ih]

theorem seqRunAux_length (code : Nat → Int) :
    ∀ (i : Nat) (l : List Str), (seqRunAux code i l).length = l.length := by
  intro i l
  induction l generalizing i with
  | nil => rfl
  | cons u rest ih => simp [seqRunAux, ih]

theorem seqRunAux_getElem? (code : Nat → Int) :
    ∀ (l : List Str) (i j : Nat),
      (seqRunAux code i l)[j]? =
        (l[j]?).map (fun u => (destName u, code (i + j) == 0, code (i + j))) := by
  intro l
  induction l with
  | nil => intro i j; simp [seqRunAux]
  | cons u rest ih =>
    intro i j
    cases j with
    | zero => simp [seqRunAux]
    | succ j =>
      simp only [seqRunAux, List.getElem?_cons_succ]
      rw [ih (i + 1) j]
      have hij : i + 1 + j = i + (j + 1) := by omega
      rw [hij]

theorem download_slides_fst (ow : Bool) (fs rOk fOk : Str → Bool) :
    ∀ ns, (download_slides ow fs rOk fOk ns).1 =
      ns.map (fun n => (n, gdcStep ow fs rOk fOk n)) := by
  intro ns
  induction ns with
  | nil => rfl
  | cons n rest ih =>
    simp only [download_slides]
    cases ow <;> cases hfs : fs n <;> cases hr : rOk n <;> cases hf : fOk n <;>
      simp [gdcStep, hfs, hr, hf, ih]

theorem download_slides_snd (ow : Bool) (fs rOk fOk : Str → Bool) :
    ∀ ns, (download_slides ow fs rOk fOk ns).2 =
      ns.filter (gdcNeedsFetch ow fs rOk) := by
  intro ns
  induction ns with
  | nil => rfl
  | cons n rest ih =>
    simp only [download_slides, List.filter_cons]
    cases ow <;> cases hfs : fs n <;> cases hr : rOk n <;>
      simp [gdcNeedsFetch, hfs, hr, ih]

/- Helper lemmas about the chunking arithmetic. -/

theorem ceilDiv_mul_form (B q r : Nat) (hB : 0 < B) (hr : r < B) :
    (B * q + r + B - 1) / B = if r = 0 then q else q + 1 := by
  by_cases h0 : r = 0
  · subst h0
    rw [if_pos rfl]
    have h1 : B * q + 0 + B - 1 = B * q + (B - 1) := by omega
    rw [h1, Nat.mul_add_div hB, Nat.div_eq_of_lt (by omega), Nat.add_zero]
  · rw [if_neg h0]
    have h2 : B * q + r + B - 1 = B * (q + 1) + (r - 1) := by
      rw [Nat.mul_add, Nat.mul_one]
      omega
    rw [h2, Nat.mul_add_div hB, Nat.div_eq_of_lt (by omega), Nat.add_zero]

theorem addB_div_form (B q r : Nat) (hB : 0 < B) (hr : r < B) :
    (B * q + r + B) / B = q + 1 := by
  have h2 : B * q + r + B = B * (q + 1) + r := by
    rw [Nat.mul_add, Nat.mul_one]
    omega
  rw [h2, Nat.mul_add_div hB, Nat.div_eq_of_lt hr, Nat.add_zero]

theorem pyRangeStep_eq (B : Nat) (hB : 0 < B) :
    ∀ n, pyRangeStep n B = (List.range ((n + B - 1) / B)).map (· * B) := by
  intro n
  induction n with
  | zero =>
    have h0 : (B - 1) / B = 0 := Nat.div_eq_of_lt (by omega)
    simp [pyRangeStep, h0]
  | succ n ih =>
    have hq := Nat.div_add_mod n B
    have hr : n % B < B := Nat.mod_lt _ hB
    have hsplit : pyRangeStep (n + 1) B =
        pyRangeStep n B ++ (if n % B = 0 then [n] else []) := by
      rw [pyRangeStep, List.range_succ, List.filter_append, pyRangeStep]
      congr 1
      by_cases h : n % B = 0 <;> simp [h]
    have hK : (n + B - 1) / B = if n % B = 0 then n / B else n / B + 1 := by
      conv_lhs => rw [← hq]
      exact ceilDiv_mul_form B (n / B) (n % B) hB hr
    have hK1 : (n + 1 + B - 1) / B = n / B + 1 := by
      have hnb : n + 1 + B - 1 = n + B := by omega
      rw [hnb]
      conv_lhs => rw [← hq]
      exact addB_div_form B (n / B) (n % B) hB hr
    by_cases h0 : n % B = 0
    · rw [hsplit, if_pos h0, ih, hK1, List.range_succ, List.map_append, hK,
        if_pos h0]
      have hd : n / B * B = n := Nat.div_mul_cancel (Nat.dvd_of_mod_eq_zero h0)
      simp [hd]
    · rw [hsplit, if_neg h0, ih, hK1, hK, if_neg h0, List.append_nil]

theorem chunksOf_eq (B : Nat) (hB : 0 < B) (l : List α) :
    chunksOf B l =
      (List.range ((l.length + B - 1) / B)).map
        (fun k => (l.drop (k * B)).take B) := by
  rw [chunksOf, pyRangeStep_eq B hB, List.map_map]
  simp [Function.comp]

theorem chunksOf_length (B : Nat) (hB : 0 < B) (l : List α) :
    (chunksOf B l).length = (l.length + B - 1) / B := by
  rw [chunksOf_eq B hB, List.length_map, List.length_range]

theorem flatten_slices (B : Nat) (l : List α) :
    ∀ m, ((List.range m).map (fun k => (l.drop (k * B)).take B)).flatten
      = l.take (m * B) := by
  intro m
  induction m with
  | zero => simp
  | succ m ih =>
    rw [List.range_succ, List.map_append, List.flatten_append, ih]
    simp only [List.map_cons, List.map_nil, List.flatten_cons, List.flatten_nil,
      List.append_nil]
    rw [Nat.succ_mul, List.take_add]

theorem le_ceil_mul (B n : Nat) (hB : 0 < B) : n ≤ ((n + B - 1) / B) * B := by
  have hq := Nat.div_add_mod (n + B - 1) B
  have hr : (n + B - 1) % B < B := Nat.mod_lt _ hB
  have hc : B * ((n + B - 1) / B) = ((n + B - 1) / B) * B := Nat.mul_comm _ _
  omega

theorem ceil_pred_mul_lt (B n : Nat) (hB : 0 < B) (hn : 0 < n) :
    (((n + B - 1) / B) - 1) * B < n := by
  have hKB : ((n + B - 1) / B) * B ≤ n + B - 1 := Nat.div_mul_le_self _ _
  have hs : (((n + B - 1) / B) - 1) * B = ((n + B - 1) / B) * B - B :=
    Nat.sub_one_mul _ _ ▸ by rw [Nat.sub_mul, Nat.one_mul]
  omega

theorem chunksOf_flatten (B : Nat) (hB : 0 < B) (l : List α) :
    (chunksOf B l).flatten = l := by
  rw [chunksOf_eq B hB, flatten_slices]
  exact List.take_of_length_le (le_ceil_mul B l.length hB)

theorem range_map_getLastD {α : Type _} (f : Nat → α) (K : Nat) (hK : 0 < K)
    (d : α) : ((List.range K).map f).getLastD d = f (K - 1) := by
  obtain ⟨m, rfl⟩ : ∃ m, K = m + 1 := ⟨K - 1, by omega⟩
  rw [List.range_succ, List.map_append]
  simp [List.getLastD_concat]

theorem range_map_dropLast {α : Type _} (f : Nat → α) (K : Nat) :
    ((List.range K).map f).dropLast = (List.range (K - 1)).map f := by
  cases K with
  | zero => simp
  | succ m =>
    rw [List.range_succ, List.map_append]
    simp [List.dropLast_concat]

theorem chunksOf_dropLast_size (B : Nat) (hB : 0 < B) (l : List α) :
    ∀ c ∈ (chunksOf B l).dropLast, c.length = B := by
  intro c hc
  rw [chunksOf_eq B hB, range_map_dropLast, List.mem_map] at hc
  obtain ⟨k, hk, rfl⟩ := hc
  rw [List.mem_range] at hk
  rw [List.length_take, List.length_drop]
  have hn : 0 < l.length := by
    by_contra h
    have hn0 : l.length = 0 := by omega
    rw [hn0] at hk
    have h1 : (0 + B - 1) / B = 0 := Nat.div_eq_of_lt (by omega)
    omega
  have hlt : ((l.length + B - 1) / B - 1) * B < l.length :=
    ceil_pred_mul_lt B l.length hB hn
  have hle : (k + 1) * B ≤ ((l.length + B - 1) / B - 1) * B :=
    Nat.mul_le_mul_right B (by omega)
  have hkb : (k + 1) * B = k * B + B := by
    rw [Nat.add_mul, Nat.one_mul]
  omega

theorem last_chunk_size (B n : Nat) (hB : 0 < B) (hn : 0 < n) :
    min B (n - (((n + B - 1) / B) - 1) * B) =
      if n % B = 0 then B else n % B := by
  have hq := Nat.div_add_mod n B
  have hr : n % B < B := Nat.mod_lt _ hB
  have hK : (n + B - 1) / B = if n % B = 0 then n / B else n / B + 1 := by
    conv_lhs => rw [← hq]
    exact ceilDiv_mul_form B (n / B) (n % B) hB hr
  by_cases h0 : n % B = 0
  · rw [if_pos h0] at hK ⊢
    rw [hK]
    have hd : n / B * B = n := Nat.div_mul_cancel (Nat.dvd_of_mod_eq_zero h0)
    rw [Nat.sub_mul, Nat.one_mul, hd]
    have hBn : B ≤ n := Nat.le_of_dvd hn (Nat.dvd_of_mod_eq_zero h0)
    have hmin : n - (n - B) = B := by omega
    rw [hmin, Nat.min_self]
  · rw [if_neg h0] at hK ⊢
    rw [hK, Nat.add_sub_cancel]
    have hm : n - n / B * B = n % B := by
      have hc : B * (n / B) = n / B * B := Nat.mul_comm _ _
      omega
    rw [hm]
    exact Nat.min_eq_right (Nat.le_of_lt hr)

theorem chunksOf_getLastD_size (B : Nat) (hB : 0 < B) (l : List α)
    (hl : l ≠ []) :
    ((chunksOf B l).getLastD []).length =
      if l.length % B = 0 then B else l.length % B := by
  have hn : 0 < l.length := List.length_pos.mpr hl
  have hK : 0 < (l.length + B - 1) / B := Nat.div_pos (by omega) hB
  rw [chunksOf_eq B hB, range_map_getLastD _ _ hK, List.length_take,
    List.length_drop]
  exact last_chunk_size B l.length hB hn

theorem flatMap_attr_length {β : Type _} :
    ∀ (cs : List (List Str × β)),
      (cs.flatMap (fun p => p.1.map (fun id => (id, p.2)))).length
        = (cs.map (fun p => p.1.length)).sum := by
  intro cs
  induction cs with
  | nil => rfl
  | cons c rest ih => simp [ih]

theorem attributeBatch_length (batchOk : Nat → Bool) (ids : List Str) :
    (attributeBatch batchOk ids).length = ids.length := by
  rw [attributeBatch, flatMap_attr_length, download_slides_batch, List.map_map]
  have h1 : ((fun p : List Str × Bool => p.1.length) ∘
      (fun p : Nat × List Str => ((p.2, batchOk p.1) : List Str × Bool)))
      = fun p : Nat × List Str => p.2.length := rfl
  rw [h1]
  have h2 : (fun p : Nat × List Str => p.2.length)
      = (fun c : List Str => c.length) ∘ Prod.snd := rfl
  rw [h2, ← List.map_map, List.enum_map_snd]
  have h3 : List.map (fun c : List Str => c.length) (chunksOf BATCH_SIZE ids)
      = List.map List.length (chunksOf BATCH_SIZE ids) := rfl
  rw [h3, ← List.length_flatten,
    chunksOf_flatten BATCH_SIZE (by rw [BATCH_SIZE]; omega) ids]

/-- Claim C3: for every strategy, the number of results equals the number of
tasks submitted: the sequential-streamed loop and the worker pool produce one
result per submitted URL (the pool reports in completion order, any
permutation of the submission indices), and the chunked-batch downloader
attributes exactly one chunk result to every member task. -/
theorem strategy_result_completeness (toD : List Str) (code : Nat → Int)
    (perm : List Nat) (batchOk : Nat → Bool) (ids : List Str) :
    (seqRun toD code).length = toD.length ∧
    (perm.Perm (List.range toD.length) →
      (poolRun toD code perm).length = toD.length) ∧
    (attributeBatch batchOk ids).length = ids.length := by
  refine ⟨seqRunAux_length code 0 toD, ?_, attributeBatch_length batchOk ids⟩
  intro hperm
  rw [poolRun, List.length_map, hperm.length_eq, List.length_range]

/-- Witness for C3 at a concrete completion order. -/
theorem strategy_result_completeness_witness :
    ([1, 0] : List Nat).Perm (List.range 2) ∧
    (poolRun ["u".toList, "v".toList] (fun _ => 0) [1, 0]).length
      = (["u".toList, "v".toList] : List Str).length :=
  ⟨by decide,
    (strategy_result_completeness ["u".toList, "v".toList] (fun _ => 0)
      [1, 0] (fun _ => true) []).2.1 (by decide)⟩

/-- Claim C4: the existence oracle answers true exactly when a file with the
exact destination name or with the name plus the canonical svs suffix exists,
and its answer depends only on the filesystem at those two paths (it is a
read-only check, performing no mutation). -/
theorem existence_oracle_spec (fs : Str → Bool) (b : Str) :
    (file_already_exists fs b = true ↔
      fs b = true ∨ fs (b ++ svsExt) = true) ∧
    (∀ g : Str → Bool, fs b = g b → fs (b ++ svsExt) = g (b ++ svsExt) →
      file_already_exists fs b = file_already_exists g b) := by
  constructor
  · simp [file_already_exists]
  · intro g h1 h2
    rw [file_already_exists, file_already_exists, h1, h2]

/-- Witness for C4: two directory states agreeing on the two candidate paths
but differing elsewhere give the same oracle answer. -/
theorem existence_oracle_spec_witness :
    file_already_exists (fun s => s == "x".toList) "x".toList
      = file_already_exists
          (fun s => (s == "x".toList) || (s == "zzz".toList)) "x".toList :=
  (existence_oracle_spec _ _).2 _ (by decide) (by decide)

/-- Claim C5: for a nonempty task list and positive batch size, the chunked
strategy produces exactly the ceiling of N divided by B chunks, every chunk
except possibly the last has exactly B tasks, the last chunk has N mod B
tasks (or B when B divides N), and concatenating the chunks in execution
order gives back the task list (chunks run strictly one after another in
order). -/
theorem chunk_boundary_correctness (B : Nat) (l : List Str) (hB : 1 ≤ B)
    (hl : l ≠ []) :
    (chunksOf B l).length = (l.length + B - 1) / B ∧
    (∀ c ∈ (chunksOf B l).dropLast, c.length = B) ∧
    ((chunksOf B l).getLastD []).length =
      (if l.length % B = 0 then B else l.length % B) ∧
    (chunksOf B l).flatten = l :=
  ⟨chunksOf_length B hB l, chunksOf_dropLast_size B hB l,
   chunksOf_getLastD_size B hB l hl, chunksOf_flatten B hB l⟩

/-- Witness for C5 at the concrete scenario of the spec: batch size two and
five tasks give three chunks of sizes two, two and one. -/
theorem chunk_boundary_correctness_witness :
    ((1 : Nat) ≤ 2 ∧
      (["a".toList, "b".toList, "c".toList, "d".toList, "e".toList] :
        List Str) ≠ []) ∧
    ((chunksOf 2
        ["a".toList, "b".toList, "c".toList, "d".toList, "e".toList]).length
      = (5 + 2 - 1) / 2 ∧
    (∀ c ∈ (chunksOf 2
        ["a".toList, "b".toList, "c".toList, "d".toList,
          "e".toList]).dropLast, c.length = 2) ∧
    ((chunksOf 2
        ["a".toList, "b".toList, "c".toList, "d".toList,
          "e".toList]).getLastD []).length = (if 5 % 2 = 0 then 2 else 5 % 2) ∧
    (chunksOf 2
        ["a".toList, "b".toList, "c".toList, "d".toList, "e".toList]).flatten
      = ["a".toList, "b".toList, "c".toList, "d".toList, "e".toList]) :=
  ⟨⟨by decide, by decide⟩,
    chunk_boundary_correctness 2 _ (by decide) (by decide)⟩

/-- Claim C9: the destination name computed by wget_download is non-empty and
deterministic, and it equals the last non-empty path segment of the
reference, with the fixed fallback literal assigned when no non-empty segment
exists. -/
theorem destination_name_derivation (url : Str) :
    destName url ≠ [] ∧
    destName url =
      (if lastNonEmptySegment url = [] then fallbackName
       else lastNonEmptySegment url) := by
  constructor
  · by_cases h : rawBasename url = []
    · simp only [destName, if_pos h]
      decide
    · simp only [destName, if_neg h]
      exact h
  · simp only [destName, lastNonEmptySegment_eq_rawBasename]

theorem gtex_main_run (fileLines : List Str) (skip seq : Bool) (c : Int)
    (fs : Str → Bool) (code : Nat → Int) (perm : List Nat)
    (hne : load_urls fileLines ≠ []) :
    gtex_main true true fileLines skip seq false c fs code perm =
      { exitCode := 0
        strategy := chooseStrategy seq c
        toDownload := (partitionUrls skip fs (load_urls fileLines)).1
        skippedNames := (partitionUrls skip fs (load_urls fileLines)).2
        fetched := (partitionUrls skip fs (load_urls fileLines)).1
        results :=
          match chooseStrategy seq c with
          | Strategy.pool =>
            poolRun (partitionUrls skip fs (load_urls fileLines)).1 code perm
          | _ => seqRun (partitionUrls skip fs (load_urls fileLines)).1 code
        fsAfter :=
          fsAfterRun fs
            (match chooseStrategy seq c with
            | Strategy.pool =>
              poolRun (partitionUrls skip fs (load_urls fileLines)).1 code perm
            | _ =>
              seqRun (partitionUrls skip fs (load_urls fileLines)).1 code) } := by
  simp [gtex_main, List.isEmpty_eq_true, hne]

/-- Claim C10: with the concurrency bound at most one the engine runs the
sequential-streamed strategy even when the sequential flag was not given, and
the worker pool is selected exactly when the sequential flag is off and the
concurrency bound is at least two. -/
theorem strategy_selection (fileLines : List Str) (skip seq : Bool) (c : Int)
    (fs : Str → Bool) (code : Nat → Int) (perm : List Nat)
    (hne : load_urls fileLines ≠ []) :
    (c ≤ 1 →
      (gtex_main true true fileLines skip seq false c fs code perm).strategy
        = Strategy.seq) ∧
    ((gtex_main true true fileLines skip seq false c fs code perm).strategy
        = Strategy.pool ↔ seq = false ∧ 2 ≤ c) := by
  rw [gtex_main_run _ _ _ _ _ _ _ hne]
  constructor
  · intro hc
    simp [chooseStrategy, hc]
  · show chooseStrategy seq c = Strategy.pool ↔ seq = false ∧ 2 ≤ c
    rw [chooseStrategy]
    by_cases hs : seq <;> by_cases hc : c ≤ 1 <;>
      simp [hs, hc] <;> omega

/-- Witness for C10: concurrency one without the sequential flag still runs
the sequential strategy. -/
theorem strategy_selection_witness :
    load_urls ["http://x/a".toList] ≠ [] ∧ (1 : Int) ≤ 1 ∧
    (gtex_main true true ["http://x/a".toList] false false false 1
        (fun _ => false) (fun _ => 0) []).strategy = Strategy.seq :=
  ⟨by decide, by decide,
    (strategy_selection ["http://x/a".toList] false false 1 (fun _ => false)
      (fun _ => 0) [] (by decide)).1 (by decide)⟩

/-- Claim C1: when one wget invocation returns a non-zero exit code, that
task is reported as failed, every other task still runs and is reported with
its own outcome, and the process exit code of the run is zero in every mode:
per-task failure is counted, never propagated as a fatal error (the only
non-zero exits are the startup errors). -/
theorem gtex_per_task_failure_isolated (fileLines : List Str) (skip : Bool)
    (c : Int) (fs : Str → Bool) (code : Nat → Int) (perm : List Nat) (i : Nat)
    (hne : load_urls fileLines ≠ [])
    (hi : i < (partitionUrls skip fs (load_urls fileLines)).1.length)
    (hcode : code i ≠ 0) :
    (∀ seq dry : Bool,
      (gtex_main true true fileLines skip seq dry c fs code perm).exitCode
        = 0) ∧
    ((gtex_main true true fileLines skip true false c fs code
        perm).results.length
      = (partitionUrls skip fs (load_urls fileLines)).1.length) ∧
    ((gtex_main true true fileLines skip true false c fs code perm).results[i]?
      = ((partitionUrls skip fs (load_urls fileLines)).1[i]?).map
          (fun u => (destName u, false, code i))) ∧
    (∀ j, j ≠ i →
      (gtex_main true true fileLines skip true false c fs code
          perm).results[j]?
        = ((partitionUrls skip fs (load_urls fileLines)).1[j]?).map
            (fun u => (destName u, code j == 0, code j))) := by
  have hseq : chooseStrategy true c = Strategy.seq := by
    simp [chooseStrategy]
  have hres : (gtex_main true true fileLines skip true false c fs code
      perm).results
      = seqRun (partitionUrls skip fs (load_urls fileLines)).1 code := by
    rw [gtex_main_run _ _ _ _ _ _ _ hne]
    show (match chooseStrategy true c with
      | Strategy.pool =>
        poolRun (partitionUrls skip fs (load_urls fileLines)).1 code perm
      | _ => seqRun (partitionUrls skip fs (load_urls fileLines)).1 code)
      = _
    rw [hseq]
  refine ⟨?_, ?_, ?_, ?_⟩
  · intro seq dry
    cases dry <;> simp [gtex_main, List.isEmpty_eq_true, hne]
  · rw [hres]
    exact seqRunAux_length code 0 _
  · rw [hres, seqRun, seqRunAux_getElem? code _ 0 i]
    have hb : (code i == 0) = false := beq_eq_false_iff_ne.mpr hcode
    simp only [Nat.zero_add, hb]
  · intro j hj
    rw [hres, seqRun, seqRunAux_getElem? code _ 0 j]
    simp only [Nat.zero_add]

/-- Witness for C1: with the first of two wget calls exiting 8, the run
still produces a result for every task and exits with code zero. -/
theorem gtex_per_task_failure_isolated_witness :
    (load_urls ["http://x/a".toList, "http://x/b".toList] ≠ [] ∧
      0 < (partitionUrls false (fun _ => false)
        (load_urls ["http://x/a".toList, "http://x/b".toList])).1.length ∧
      (if (0 : Nat) = 0 then (8 : Int) else 0) ≠ 0) ∧
    (gtex_main true true ["http://x/a".toList, "http://x/b".toList] false true
        false 4 (fun _ => false) (fun i => if i = 0 then (8 : Int) else 0)
        []).results.length
      = (partitionUrls false (fun _ => false)
          (load_urls ["http://x/a".toList, "http://x/b".toList])).1.length :=
  ⟨⟨by decide, by decide, by decide⟩,
    (gtex_per_task_failure_isolated
      ["http://x/a".toList, "http://x/b".toList] false 4 (fun _ => false)
      (fun i => if i = 0 then (8 : Int) else 0) [] 0 (by decide) (by decide)
      (by decide)).2.1⟩

/-- Claim C6: a dry run performs no fetch, produces no results, leaves the
filesystem unchanged, and the partition it reports is exactly the partition
the real engine would act on with the same filesystem; the gdc dry run
likewise returns before invoking any download. -/
theorem dry_run_purity (w uf : Bool) (fileLines : List Str) (skip seq : Bool)
    (c : Int) (fs : Str → Bool) (code : Nat → Int) (perm : List Nat)
    (files : List Str) (yes confirm methodTwo : Bool)
    (removeOk fetchOk : Str → Bool) (batchOk : Nat → Bool) :
    (gtex_main w uf fileLines skip seq true c fs code perm).fetched = [] ∧
    (gtex_main w uf fileLines skip seq true c fs code perm).results = [] ∧
    (gtex_main w uf fileLines skip seq true c fs code perm).fsAfter = fs ∧
    (gtex_main w uf fileLines skip seq true c fs code perm).toDownload
      = (gtex_main w uf fileLines skip seq false c fs code perm).toDownload ∧
    (gtex_main w uf fileLines skip seq true c fs code perm).skippedNames
      = (gtex_main w uf fileLines skip seq false c fs code
          perm).skippedNames ∧
    (gdc_main true yes confirm methodTwo files fs removeOk fetchOk
        batchOk).fetchCalls = [] ∧
    (gdc_main true yes confirm methodTwo files fs removeOk fetchOk
        batchOk).batchCalls = [] ∧
    (gdc_main true yes confirm methodTwo files fs removeOk fetchOk
        batchOk).fsAfter = fs := by
  cases w <;> cases uf <;>
    by_cases he : (load_urls fileLines).isEmpty = true <;>
      simp [gtex_main, gdc_main, he]

/-- Counterexample to claim C2 as stated: the skipped partition holds derived
destination basenames rather than the raw input references, so the union of
the two output lists is not the deduplicated input set.  With the single
input reference http slash slash x slash a whose destination file is already
present, the partition is an empty download list plus the skipped basename,
and the union differs from the input set. -/
theorem taskEnumerator_union_counterexample :
    ((partitionUrls true (fun s => s == "a".toList) ["http://x/a".toList]).1
        ++ (partitionUrls true (fun s => s == "a".toList)
            ["http://x/a".toList]).2).toFinset
      ≠ (["http://x/a".toList] : List Str).toFinset := by
  decide

/-- Claim C2 amended: each input reference lands in exactly one partition
(either the reference itself appears in the download list, or its derived
basename appears in the skipped list), the download list is the subsequence
of the input selected by the existence check, hence preserves input order,
and the two output lists are disjoint as sets of strings. -/
theorem taskEnumerator_partition_amended (skip : Bool) (fs : Str → Bool)
    (urls : List Str) :
    (partitionUrls skip fs urls).1 =
      urls.filter
        (fun u => !(skip && file_already_exists fs (rawBasename u))) ∧
    (partitionUrls skip fs urls).2 =
      (urls.filter
        (fun u => skip && file_already_exists fs (rawBasename u))).map
        rawBasename ∧
    (∀ u ∈ urls, u ∈ (partitionUrls skip fs urls).1 ∨
      rawBasename u ∈ (partitionUrls skip fs urls).2) ∧
    (partitionUrls skip fs urls).1.Sublist urls ∧
    List.Disjoint (partitionUrls skip fs urls).1
      (partitionUrls skip fs urls).2 := by
  refine ⟨partitionUrls_fst skip fs urls, partitionUrls_snd skip fs urls,
    ?_, ?_, ?_⟩
  · intro u hu
    by_cases hc : (skip && file_already_exists fs (rawBasename u)) = true
    · right
      rw [partitionUrls_snd]
      exact List.mem_map_of_mem _ (List.mem_filter.mpr ⟨hu, hc⟩)
    · left
      rw [partitionUrls_fst]
      refine List.mem_filter.mpr ⟨hu, ?_⟩
      simp [hc]
  · rw [partitionUrls_fst]
    exact List.filter_sublist urls
  · intro s hs1 hs2
    rw [partitionUrls_fst, List.mem_filter] at hs1
    rw [partitionUrls_snd, List.mem_map] at hs2
    obtain ⟨u, hu, hub⟩ := hs2
    rw [List.mem_filter] at hu
    have hss : rawBasename s = s := by rw [← hub, rawBasename_idem]
    have hcs : (skip && file_already_exists fs (rawBasename s)) = true := by
      rw [hss, ← hub]
      exact hu.2
    have h2 := hs1.2
    rw [hcs] at h2
    exact absurd h2 (by decide)

/-- Witness for C2: a reference whose destination is absent lands in the
download partition. -/
theorem taskEnumerator_partition_witness :
    "http://x/b".toList ∈ (["http://x/b".toList] : List Str) ∧
    ("http://x/b".toList ∈ (partitionUrls true (fun s => s == "a".toList)
        ["http://x/b".toList]).1 ∨
      rawBasename "http://x/b".toList ∈ (partitionUrls true
        (fun s => s == "a".toList) ["http://x/b".toList]).2) :=
  ⟨by decide,
    (taskEnumerator_partition_amended true (fun s => s == "a".toList)
      ["http://x/b".toList]).2.2.1 _ (by decide)⟩

/-- Claim C7: for a task whose destination file exists, with overwrite the
file is removed before the fetch (a successful removal lets the fetch run, a
failing removal marks the task failed and the fetch primitive is never
reached), execution always continues over the remaining tasks; without
overwrite the task is skipped and never passed to the fetch primitive; and on
the gtex side an existing destination with skipping enabled is dropped from
the download partition at enumeration time. -/
theorem overwrite_skip_semantics (ow : Bool) (fs removeOk fetchOk : Str → Bool)
    (names : List Str) (n : Str) (urls : List Str) (u : Str)
    (hn : n ∈ names) (hfs : fs n = true) :
    ((download_slides ow fs removeOk fetchOk names).1.length
      = names.length) ∧
    (ow = true → removeOk n = false →
      (n, Outcome.failed) ∈ (download_slides ow fs removeOk fetchOk names).1 ∧
      n ∉ (download_slides ow fs removeOk fetchOk names).2) ∧
    (ow = true → removeOk n = true →
      n ∈ (download_slides ow fs removeOk fetchOk names).2) ∧
    (ow = false →
      (n, Outcome.skipped) ∈ (download_slides ow fs removeOk fetchOk
        names).1 ∧
      n ∉ (download_slides ow fs removeOk fetchOk names).2) ∧
    (u ∈ urls → file_already_exists fs (rawBasename u) = true →
      u ∉ (partitionUrls true fs urls).1) := by
  refine ⟨?_, ?_, ?_, ?_, ?_⟩
  · rw [download_slides_fst, List.length_map]
  · intro how hrm
    constructor
    · rw [download_slides_fst]
      have hstep : gdcStep ow fs removeOk fetchOk n = Outcome.failed := by
        rw [gdcStep]
        simp [hfs, how, hrm]
      exact List.mem_map.mpr ⟨n, hn, by simp [hstep]⟩
    · rw [download_slides_snd]
      intro hmem
      rw [List.mem_filter, gdcNeedsFetch] at hmem
      simp [hfs, how, hrm] at hmem
  · intro how hrm
    rw [download_slides_snd]
    refine List.mem_filter.mpr ⟨hn, ?_⟩
    rw [gdcNeedsFetch]
    simp [hfs, how, hrm]
  · intro how
    constructor
    · rw [download_slides_fst]
      have hstep : gdcStep ow fs removeOk fetchOk n = Outcome.skipped := by
        rw [gdcStep]
        simp [hfs, how]
      exact List.mem_map.mpr ⟨n, hn, by simp [hstep]⟩
    · rw [download_slides_snd]
      intro hmem
      rw [List.mem_filter, gdcNeedsFetch] at hmem
      simp [hfs, how] at hmem
  · intro hu hex
    rw [partitionUrls_fst, List.mem_filter]
    intro hmem
    simp [hex] at hmem

/-- Witness for C7: an existing file with overwrite set and a failing removal
yields a failed result and no fetch call. -/
theorem overwrite_skip_semantics_witness :
    (("a".toList ∈ (["a".toList] : List Str)) ∧
      (fun s => s == "a".toList) "a".toList = true) ∧
    (("a".toList, Outcome.failed) ∈ (download_slides true
        (fun s => s == "a".toList) (fun _ => false) (fun _ => true)
        ["a".toList]).1 ∧
      "a".toList ∉ (download_slides true (fun s => s == "a".toList)
        (fun _ => false) (fun _ => true) ["a".toList]).2) :=
  ⟨⟨by decide, by decide⟩,
    (overwrite_skip_semantics true (fun s => s == "a".toList)
      (fun _ => false) (fun _ => true) ["a".toList] "a".toList [] "z".toList
      (by decide) (by decide)).2.1 rfl rfl⟩

/-- Counterexample to claim C8 as stated: with the URL file present but
containing only a comment line, the enumerator returns an empty list without
signalling any error and the run terminates normally with exit code zero — a
message is printed but the empty input is not surfaced as an abort or a
non-zero exit. -/
theorem empty_input_exit_counterexample :
    load_urls ["# no urls here".toList] = [] ∧
    (gtex_main true true ["# no urls here".toList] true false false 4
        (fun _ => false) (fun _ => 0) []).exitCode = 0 ∧
    (gtex_main true true ["# no urls here".toList] true false false 4
        (fun _ => false) (fun _ => 0) []).results = [] := by
  refine ⟨by decide, by decide, by decide⟩

/-- Claim C8 amended: a missing identifier file aborts with exit code two and
a message; an input that is empty after dropping blank and comment lines ends
the run with exit code zero, a printed message, and no fetch at all (it is
not an error exit); blank lines and lines whose stripped form starts with the
comment character are silently dropped without affecting the rest of the
input. -/
theorem input_error_handling_amended (fileLines pre post : List Str)
    (bad : Str) (w skip seq dry : Bool) (c : Int) (fs : Str → Bool)
    (code : Nat → Int) (perm : List Nat) :
    ((gtex_main w false fileLines skip seq dry c fs code perm).exitCode
      = 2) ∧
    (load_urls fileLines = [] →
      (gtex_main true true fileLines skip seq dry c fs code perm).exitCode
        = 0 ∧
      (gtex_main true true fileLines skip seq dry c fs code perm).fetched
        = [] ∧
      (gtex_main true true fileLines skip seq dry c fs code perm).results
        = []) ∧
    ((stripChars bad = [] ∨ (stripChars bad).head? = some '#') →
      load_urls (pre ++ bad :: post) = load_urls (pre ++ post)) := by
  refine ⟨?_, ?_, ?_⟩
  · cases w <;> simp [gtex_main]
  · intro h
    have he : (load_urls fileLines).isEmpty = true := by
      simp [List.isEmpty_eq_true, h]
    simp [gtex_main, he]
  · intro h
    have hk : keepLine (stripChars bad) = false := by
      rcases h with h | h
      · rw [h]
        rfl
      · cases hs : stripChars bad with
        | nil => rfl
        | cons ch rest =>
          rw [hs] at h
          simp only [List.head?_cons, Option.some.injEq] at h
          simp [keepLine, h]
    rw [load_urls, load_urls, List.map_append, List.map_append,
      List.map_cons, List.filter_append, List.filter_append,
      List.filter_cons, hk]
    simp

/-- Witness for C8: an empty URL list ends with exit code zero and no fetch,
and a comment line is dropped from a larger input. -/
theorem input_error_handling_witness :
    load_urls ([] : List Str) = [] ∧
    (gtex_main true true [] true false false 4 (fun _ => false) (fun _ => 0)
        []).exitCode = 0 ∧
    load_urls (["http://x/a".toList] ++ " # note".toList ::
        ["http://x/b".toList])
      = load_urls (["http://x/a".toList] ++ ["http://x/b".toList]) :=
  ⟨by decide,
    ((input_error_handling_amended [] [] [] [] true true false false 4
      (fun _ => false) (fun _ => 0) []).2.1 (by decide)).1,
    (input_error_handling_amended [] ["http://x/a".toList]
      ["http://x/b".toList] " # note".toList true true false false 4
      (fun _ => false) (fun _ => 0) []).2.2 (Or.inr (by decide))⟩
